import Mathlib

/-!
# Verification of the tool-installation pipeline (install-tool.py)

A shallow embedding of the artifact-installation pipeline: SHA-256 hash
verification, the per-format extraction strategies (tar.gz / tar.xz / zip /
raw binary / Helix dual-output), and the batch orchestrator loop, each
translated from the Python source.  Bytes are lists of naturals (each byte
taken mod 256 where it is packed into words), paths are character lists,
and effectful steps are modelled as pure functions returning explicit
event traces.
-/

namespace InstallTool

/-- A downloaded byte sequence (each element intended `< 256`). -/
abbrev Bytes := List Nat

/-! ## SHA-256 (hashlib.sha256(...).hexdigest())

A direct embedding of FIPS 180-4 SHA-256 over byte lists, modelling
Python's hashlib.sha256.  All word arithmetic is `Nat` reduced mod `2^32`.
-/

/-- `2^32`, the word modulus. -/
def M32 : Nat := 4294967296

/-- Addition mod `2^32`. -/
def wadd (a b : Nat) : Nat := (a + b) % M32

/-- Right rotation of a 32-bit word by `n`. -/
def rotr (n x : Nat) : Nat := ((x >>> n) ||| (x <<< (32 - n))) % M32

/-- Bitwise complement of a 32-bit word. -/
def wnot (x : Nat) : Nat := 4294967295 ^^^ x

/-- SHA-256 Ch function. -/
def chF (x y z : Nat) : Nat := (x &&& y) ^^^ (wnot x &&& z)

/-- SHA-256 Maj function. -/
def majF (x y z : Nat) : Nat := (x &&& y) ^^^ (x &&& z) ^^^ (y &&& z)

/-- SHA-256 Σ0. -/
def bsig0 (x : Nat) : Nat := rotr 2 x ^^^ rotr 13 x ^^^ rotr 22 x

/-- SHA-256 Σ1. -/
def bsig1 (x : Nat) : Nat := rotr 6 x ^^^ rotr 11 x ^^^ rotr 25 x

/-- SHA-256 σ0. -/
def ssig0 (x : Nat) : Nat := rotr 7 x ^^^ rotr 18 x ^^^ (x >>> 3)

/-- SHA-256 σ1. -/
def ssig1 (x : Nat) : Nat := rotr 17 x ^^^ rotr 19 x ^^^ (x >>> 10)

/-- The 64 SHA-256 round constants. -/
def K256 : List Nat :=
  [1116352408, 1899447441, 3049323471, 3921009573, 961987163,
   1508970993, 2453635748, 2870763221, 3624381080, 310598401,
   607225278, 1426881987, 1925078388, 2162078206, 2614888103,
   3248222580, 3835390401, 4022224774, 264347078, 604807628,
   770255983, 1249150122, 1555081692, 1996064986, 2554220882,
   2821834349, 2952996808, 3210313671, 3336571891, 3584528711,
   113926993, 338241895, 666307205, 773529912, 1294757372,
   1396182291, 1695183700, 1986661051, 2177026350, 2456956037,
   2730485921, 2820302411, 3259730800, 3345764771, 3516065817,
   3600352804, 4094571909, 275423344, 430227734, 506948616,
   659060556, 883997877, 958139571, 1322822218, 1537002063,
   1747873779, 1955562222, 2024104815, 2227730452, 2361852424,
   2428436474, 2756734187, 3204031479, 3329325298]

/-- `k` big-endian bytes of `n` (most significant first). -/
def beBytes (k n : Nat) : Bytes :=
  (List.range k).reverse.map (fun i => (n >>> (8 * i)) % 256)

/-- SHA-256 padding: append 0x80, zeros to 56 mod 64, then the 64-bit
big-endian bit length. -/
def padMsg (msg : Bytes) : Bytes :=
  msg ++ [128] ++ List.replicate ((119 - msg.length % 64) % 64) 0
      ++ beBytes 8 (8 * msg.length)

/-- Split into 64-byte blocks, given the number of blocks as fuel. -/
def chunksAux : Nat → Bytes → List Bytes
  | 0, _ => []
  | k + 1, bs => bs.take 64 :: chunksAux k (bs.drop 64)

/-- The 64-byte blocks of a (padded) message. -/
def blocks (bs : Bytes) : List Bytes := chunksAux (bs.length / 64) bs

/-- Pack bytes into big-endian 32-bit words. -/
def toWords : Bytes → List Nat
  | b0 :: b1 :: b2 :: b3 :: rest =>
      (((b0 % 256) <<< 24) ||| ((b1 % 256) <<< 16) ||| ((b2 % 256) <<< 8)
        ||| (b3 % 256)) :: toWords rest
  | _ => []

/-- Extend the 16 message-schedule words by `k` more. -/
def extendWords : Nat → List Nat → List Nat
  | 0, ws => ws
  | k + 1, ws =>
      let n := ws.length
      let w := wadd (wadd (ssig1 (ws.getD (n - 2) 0)) (ws.getD (n - 7) 0))
                    (wadd (ssig0 (ws.getD (n - 15) 0)) (ws.getD (n - 16) 0))
      extendWords k (ws ++ [w])

/-- The eight 32-bit working variables / hash state. -/
structure H8 where
  a : Nat
  b : Nat
  c : Nat
  d : Nat
  e : Nat
  f : Nat
  g : Nat
  h : Nat
deriving DecidableEq, Repr

/-- One SHA-256 round, consuming a (round constant, schedule word) pair. -/
def roundStep (st : H8) (kw : Nat × Nat) : H8 :=
  let t1 := wadd st.h (wadd (bsig1 st.e) (wadd (chF st.e st.f st.g) (wadd kw.1 kw.2)))
  let t2 := wadd (bsig0 st.a) (majF st.a st.b st.c)
  ⟨wadd t1 t2, st.a, st.b, st.c, wadd st.d t1, st.e, st.f, st.g⟩

/-- Compress one 64-byte block into the running hash state. -/
def compressBlock (hs : H8) (block : Bytes) : H8 :=
  let ws := extendWords 48 (toWords block)
  let st := (K256.zip ws).foldl roundStep hs
  ⟨wadd hs.a st.a, wadd hs.b st.b, wadd hs.c st.c, wadd hs.d st.d,
   wadd hs.e st.e, wadd hs.f st.f, wadd hs.g st.g, wadd hs.h st.h⟩

/-- The SHA-256 initial hash value. -/
def initH : H8 :=
  ⟨1779033703, 3144134277, 1013904242, 2773480762,
   1359893119, 2600822924, 528734635, 1541459225⟩

/-- SHA-256 of a byte sequence, as the eight 32-bit state words. -/
def sha256words (msg : Bytes) : H8 :=
  (blocks (padMsg msg)).foldl compressBlock initH

/-- Lowercase hex digit for `n < 16` (digits then letters from 'a'). -/
def hexChar (n : Nat) : Char :=
  if n < 10 then Char.ofNat (48 + n) else Char.ofNat (87 + n)

/-- Eight lowercase hex characters of a 32-bit word, most significant first. -/
def hex8 (x : Nat) : List Char :=
  (List.range 8).reverse.map (fun i => hexChar ((x >>> (4 * i)) % 16))

/-- The hex rendering of the eight state words. -/
def hexH8 (s : H8) : List Char :=
  hex8 s.a ++ hex8 s.b ++ hex8 s.c ++ hex8 s.d
    ++ hex8 s.e ++ hex8 s.f ++ hex8 s.g ++ hex8 s.h

/-- hashlib.sha256(data).hexdigest(): the 64-character lowercase hex digest. -/
def sha256hex (msg : Bytes) : List Char := hexH8 (sha256words msg)

/-- The hash comparison performed by Tool.download_and_verify: the computed
hexdigest is compared to the descriptor's expected digest with plain string
equality (actual_hash != self.sha256 raises on mismatch). -/
def hashOk (data : Bytes) (expected : List Char) : Bool :=
  sha256hex data == expected

/-! ## Archive entry paths

Entry names are split into path segments as Path(member.name).parts does
for relative archive entry names: split on the separator, dropping empty
segments (so a trailing slash or doubled slash contributes nothing).
-/

/-- Accumulator-based splitter: `acc` holds the current segment reversed. -/
def splitSlashAux : List Char → List Char → List (List Char)
  | [], acc => if acc = [] then [] else [acc.reverse]
  | c :: cs, acc =>
      if c = '/' then
        if acc = [] then splitSlashAux cs []
        else acc.reverse :: splitSlashAux cs []
      else splitSlashAux cs (c :: acc)

/-- Path(name).parts for a relative entry name: the nonempty segments
between separators. -/
def splitSlash (s : List Char) : List (List Char) := splitSlashAux s []

/-- Entry type of an archive member: regular file, directory, or anything
else (symlink, device, ...). tarfile's member.isfile() / member.isdir()
test the first two; zipfile only distinguishes is_dir(). -/
inductive MType
  | file
  | dir
  | other
deriving DecidableEq, Repr

/-- One archive member: its stored path, its entry type, and its content
bytes (empty for non-files). -/
structure Member where
  name : List Char
  type : MType
  content : Bytes
deriving DecidableEq, Repr

/-- The final path segment of a member (parts[-1]); `[]` if no segments. -/
def lastSeg (m : Member) : List Char := (splitSlash m.name).getLastD []

/-- The (name, content) pair a surviving member contributes. -/
def emitOf (m : Member) : List Char × Bytes := (lastSeg m, m.content)

/-! ## Generic tar extraction (TarGzTool._extract_binaries)

Shared by TarGzTool and TarXzTool (they differ only in the decompression
layer, which is below this embedding).  For each member in archive order:
skip non-files; skip members whose segment count is at most
strip_components; name the member by its final segment; if the binaries
filter is non-empty, keep only names in it; emit (name, content).
-/

/-- Does a tar member survive the isfile and strip_components tests? -/
def survivesTar (strip : Nat) (m : Member) : Bool :=
  m.type == MType.file && strip < (splitSlash m.name).length

/-- TarGzTool._extract_binaries, as the ordered list of
(installed name, content) pairs it writes into the staging directory
(each is also chmod 0o755 and appended to the returned name list). -/
def extract_binaries (strip : Nat) (binaries : List (List Char)) :
    List Member → List (List Char × Bytes)
  | [] => []
  | m :: ms =>
      if m.type == MType.file then
        if (splitSlash m.name).length ≤ strip then
          extract_binaries strip binaries ms
        else if binaries ≠ [] ∧ lastSeg m ∉ binaries then
          extract_binaries strip binaries ms
        else
          emitOf m :: extract_binaries strip binaries ms
      else extract_binaries strip binaries ms

/-! ## Zip extraction (ZipTool.install)

The same five-step algorithm over zip directory entries; the only
difference from the tar variant is that the skip test is info.is_dir()
(zip metadata has no further entry types). -/

/-- Does a zip entry survive the is_dir and strip_components tests? -/
def survivesZip (strip : Nat) (m : Member) : Bool :=
  !(m.type == MType.dir) && strip < (splitSlash m.name).length

/-- ZipTool.install, as the ordered (installed name, content) pairs. -/
def zip_install (strip : Nat) (binaries : List (List Char)) :
    List Member → List (List Char × Bytes)
  | [] => []
  | m :: ms =>
      if m.type == MType.dir then zip_install strip binaries ms
      else
        if (splitSlash m.name).length ≤ strip then
          zip_install strip binaries ms
        else if binaries ≠ [] ∧ lastSeg m ∉ binaries then
          zip_install strip binaries ms
        else
          emitOf m :: zip_install strip binaries ms

/-! ## Raw binary installation (BinaryTool.install) -/

/-- BinaryTool.install: the downloaded bytes are copied verbatim to a
single destination file named binary_name, falling back to the tool name
when binary_name is the empty string (Python's `or`). -/
def binary_install (binary_name tool_name : List Char) (data : Bytes) :
    List (List Char × Bytes) :=
  [(if binary_name = [] then tool_name else binary_name, data)]

/-! ## Helix dual-output extraction (HelixTool.install)

Walks tar members; members with fewer than two path segments are skipped;
a file whose final segment is "hx" is installed into the standard
destination; otherwise, a member whose parts contain a segment "runtime"
is written under the fixed runtime root (~/.config/helix/runtime) at the
path after the first "runtime" segment, creating parent directories
(a side effect outside the staging/destination flow). -/

/-- Side-effect writes into the fixed runtime root. -/
inductive HelixFx
  /-- member.isdir(): mkdir -p of runtime_dir/rel. -/
  | mkdirTree (rel : List (List Char))
  /-- member.isfile(): mkdir -p of the parent, then write the bytes at
  runtime_dir/rel. -/
  | writeFile (rel : List (List Char)) (content : Bytes)
deriving DecidableEq, Repr

/-- The suffix of a list strictly after the first occurrence of `x`
(parts[parts.index(x) + 1:]); the whole list consumed if absent. -/
def afterFirst (x : List Char) : List (List Char) → List (List Char)
  | [] => []
  | a :: as => if a = x then as else afterFirst x as

/-- What one tar member contributes in HelixTool.install: entries for the
standard destination, and side-effect writes under the runtime root. -/
def helix_step (m : Member) : List (List Char × Bytes) × List HelixFx :=
  let parts := splitSlash m.name
  if parts.length < 2 then ([], [])
  else if m.type == MType.file ∧ parts.getLastD [] = "hx".data then
    ([("hx".data, m.content)], [])
  else if "runtime".data ∈ parts then
    let rel := afterFirst "runtime".data parts
    if rel = [] then ([], [])
    else match m.type with
      | MType.dir => ([], [HelixFx.mkdirTree rel])
      | MType.file => ([], [HelixFx.writeFile rel m.content])
      | MType.other => ([], [])
  else ([], [])

/-- HelixTool.install over the whole member list: destination entries and
runtime side effects, both in archive order. -/
def helix_install : List Member → List (List Char × Bytes) × List HelixFx
  | [] => ([], [])
  | m :: ms =>
      let s := helix_step m
      let r := helix_install ms
      (s.1 ++ r.1, s.2 ++ r.2)

/-! ## Tool descriptors and the orchestrator (install_tools)

The registry maps names to descriptors; the network, the stdlib archive
parser, and the filesystem copy step are external collaborators, supplied
as oracle functions in an environment.  Each per-tool install attempt is
modelled as an outcome (classifying the raise site of the caught
exception) plus an ordered trace of the filesystem-visible events. -/

/-- Which extraction strategy a descriptor selects. -/
inductive ToolKind
  | targz
  | tarxz
  | zip
  | rawbin
  | helix
deriving DecidableEq, Repr

/-- One registry entry (the Tool dataclass fields the pipeline reads). -/
structure ToolSpec where
  name : List Char
  version : List Char
  sha256 : List Char
  postInstallMessage : Option (List Char)
  kind : ToolKind
  binaries : List (List Char)
  strip : Nat
  binary_name : List Char
deriving DecidableEq, Repr

/-- External collaborators of one batch run: urlopen (keyed by tool name,
since the URL is a function of the descriptor), the stdlib archive parser
applied to the persisted artifact, and whether copying a given binary
name into the destination directory succeeds. -/
structure Env where
  fetch : List Char → Except (List Char) Bytes
  parse : Bytes → Except (List Char) (List Member)
  place : List Char → Bool

/-- Tool.install dispatch: the entries written into the staging directory
(name, content) plus Helix runtime side effects. The raw-binary strategy
never consults the archive parser. -/
def runInstall (parse : Bytes → Except (List Char) (List Member))
    (tool : ToolSpec) (data : Bytes) :
    Except (List Char) (List (List Char × Bytes) × List HelixFx) :=
  match tool.kind with
  | ToolKind.rawbin => Except.ok (binary_install tool.binary_name tool.name data, [])
  | ToolKind.targz =>
      (parse data).map (fun ms => (extract_binaries tool.strip tool.binaries ms, []))
  | ToolKind.tarxz =>
      (parse data).map (fun ms => (extract_binaries tool.strip tool.binaries ms, []))
  | ToolKind.zip =>
      (parse data).map (fun ms => (zip_install tool.strip tool.binaries ms, []))
  | ToolKind.helix => (parse data).map helix_install

/-- Filesystem-visible events of one install attempt, in order. -/
inductive Ev
  /-- tempfile.NamedTemporaryFile(delete=False) created the artifact file. -/
  | tmpFileCreated
  /-- response.read() completed. -/
  | fetched
  /-- the sha256 comparison passed. -/
  | verified
  /-- dest_path.write_bytes(data) persisted the artifact. -/
  | tmpFileWritten
  /-- tempfile.TemporaryDirectory() created the staging directory. -/
  | stagingCreated
  /-- tool.install was invoked (the bytes are handed to the parser). -/
  | installInvoked
  /-- a Helix runtime-root side-effect write. -/
  | runtimeFx (fx : HelixFx)
  /-- one binary copied into the destination directory (and chmod 755). -/
  | destWrite (name : List Char)
  /-- the TemporaryDirectory context exited, removing the staging tree. -/
  | stagingRemoved
  /-- tmp_path.unlink removed the artifact file. -/
  | tmpFileRemoved
  /-- the post-install message printed. -/
  | postMsg (msg : List Char)
deriving DecidableEq, Repr

/-- Classification of the per-tool result by raise site. -/
inductive Outcome
  | ok
  | unknownTool
  | networkError
  | hashMismatch
  | archiveFormatError
  | placementError
deriving DecidableEq, Repr

/-- The destination-copy loop: one destWrite per binary until a copy
fails, which raises and abandons the rest (prior copies remain). -/
def placeEvents (place : List Char → Bool) : List (List Char) → List Ev × Bool
  | [] => ([], true)
  | n :: ns =>
      if place n then
        let r := placeEvents place ns
        (Ev.destWrite n :: r.1, r.2)
      else ([], false)

/-- One iteration of the install_tools loop: resolve the descriptor, then
the try-block (create temp artifact file, download and verify, stage,
extract, copy into the destination, unlink the temp file, print the
post-install message), with every exception caught at the loop boundary.
The temp artifact file is unlinked only on the success path, after the
staging with-block; the staging directory is removed by its context
manager on success and on exceptions raised inside the with-block. -/
def installOne (reg : List ToolSpec) (env : Env) (name : List Char) :
    Outcome × List Ev :=
  match reg.find? (fun t => t.name == name) with
  | none => (Outcome.unknownTool, [])
  | some tool =>
      match env.fetch name with
      | Except.error _ => (Outcome.networkError, [Ev.tmpFileCreated])
      | Except.ok data =>
          if hashOk data tool.sha256 then
            match runInstall env.parse tool data with
            | Except.error _ =>
                (Outcome.archiveFormatError,
                 [Ev.tmpFileCreated, Ev.fetched, Ev.verified, Ev.tmpFileWritten,
                  Ev.stagingCreated, Ev.installInvoked, Ev.stagingRemoved])
            | Except.ok (entries, fx) =>
                let pl := placeEvents env.place (entries.map Prod.fst)
                let base :=
                  [Ev.tmpFileCreated, Ev.fetched, Ev.verified, Ev.tmpFileWritten,
                   Ev.stagingCreated, Ev.installInvoked]
                    ++ fx.map Ev.runtimeFx ++ pl.1 ++ [Ev.stagingRemoved]
                if pl.2 then
                  (Outcome.ok,
                   base ++ [Ev.tmpFileRemoved]
                     ++ (match tool.postInstallMessage with
                         | some m => [Ev.postMsg m]
                         | none => []))
                else (Outcome.placementError, base)
          else (Outcome.hashMismatch, [Ev.tmpFileCreated, Ev.fetched])

/-- install_tools: iterate the requested names in order, catching every
per-name failure at the loop boundary; the returned flag is the running
success accumulator (true only if every name succeeded). Per name we
record (name, outcome, trace). -/
def install_tools (reg : List ToolSpec) (env : Env) :
    List (List Char) → Bool × List (List Char × Outcome × List Ev)
  | [] => (true, [])
  | n :: ns =>
      let r := installOne reg env n
      let rest := install_tools reg env ns
      ((r.1 == Outcome.ok) && rest.1, (n, r.1, r.2) :: rest.2)

/-! ## Helper lemmas -/

/-- Segments produced by the splitter contain no separator and are
nonempty, provided the accumulator already satisfies the invariant. -/
theorem splitSlashAux_ok :
    ∀ (s acc p : List Char), p ∈ splitSlashAux s acc → ('/' : Char) ∉ acc →
      ('/' : Char) ∉ p ∧ p ≠ [] := by
  intro s
  induction s with
  | nil =>
      intro acc p hp hacc
      by_cases h : acc = []
      · simp [splitSlashAux, h] at hp
      · simp [splitSlashAux, h] at hp
        subst hp
        exact ⟨fun hs => hacc (List.mem_reverse.mp hs), by simpa using h⟩
  | cons c cs ih =>
      intro acc p hp hacc
      by_cases hc : c = '/'
      · subst hc
        by_cases h : acc = []
        · simp [splitSlashAux, h] at hp
          exact ih [] p hp (by simp)
        · simp [splitSlashAux, h] at hp
          rcases hp with hp | hp
          · subst hp
            exact ⟨fun hs => hacc (List.mem_reverse.mp hs), by simpa using h⟩
          · exact ih [] p hp (by simp)
      · simp only [splitSlashAux, if_neg hc] at hp
        refine ih (c :: acc) p hp ?_
        intro hs
        rcases List.mem_cons.mp hs with hs | hs
        · exact hc hs.symm
        · exact hacc hs

/-- Every path segment is nonempty and free of the separator. -/
theorem splitSlash_ok (s p : List Char) (hp : p ∈ splitSlash s) :
    ('/' : Char) ∉ p ∧ p ≠ [] :=
  splitSlashAux_ok s [] p hp (by simp)

/-- getLastD is either the default or a member of the list. -/
theorem mem_of_getLastD {α : Type _} (l : List α) (d : α) :
    l.getLastD d = d ∨ l.getLastD d ∈ l := by
  cases l with
  | nil => exact Or.inl rfl
  | cons a as =>
      exact Or.inr (by rw [List.getLastD_cons]; exact List.getLastD_mem_cons as a)

/-- The installed name (final path segment) never contains a separator. -/
theorem no_slash_lastSeg (m : Member) : ('/' : Char) ∉ lastSeg m := by
  rcases mem_of_getLastD (splitSlash m.name) [] with h | h
  · unfold lastSeg
    rw [h]
    simp
  · exact (splitSlash_ok m.name _ h).1

/-- The combined keep test of the generic tar extraction: a regular file
surviving the strip rule, whose final segment passes the binaries filter. -/
def keepTar (strip : Nat) (F : List (List Char)) (m : Member) : Bool :=
  survivesTar strip m && (F.isEmpty || decide (lastSeg m ∈ F))

/-- The combined keep test of the zip extraction. -/
def keepZip (strip : Nat) (F : List (List Char)) (m : Member) : Bool :=
  survivesZip strip m && (F.isEmpty || decide (lastSeg m ∈ F))

/-- The generic tar extraction is a filter of the members followed by the
name/content projection. -/
theorem extract_binaries_eq_filter (k : Nat) (F : List (List Char)) :
    ∀ ms : List Member,
      extract_binaries k F ms = (ms.filter (keepTar k F)).map emitOf := by
  intro ms
  induction ms with
  | nil => rfl
  | cons m ms ih =>
      by_cases h1 : m.type = MType.file
      · by_cases h2 : (splitSlash m.name).length ≤ k
        · have hk : keepTar k F m = false := by
            simp only [keepTar, survivesTar, Bool.and_eq_false_iff]
            left
            right
            simpa using h2
          simp [extract_binaries, h1, h2, ih, List.filter_cons, hk]
        · by_cases h3 : F ≠ [] ∧ lastSeg m ∉ F
          · have hk : keepTar k F m = false := by
              simp only [keepTar, Bool.and_eq_false_iff]
              right
              simp only [Bool.or_eq_false_iff]
              exact ⟨by simpa [List.isEmpty_iff] using h3.1, by simpa using h3.2⟩
            simp [extract_binaries, h1, h2, h3, ih, List.filter_cons, hk]
          · have hk : keepTar k F m = true := by
              simp only [keepTar, Bool.and_eq_true, Bool.or_eq_true]
              refine ⟨by simp [survivesTar, h1]; omega, ?_⟩
              rcases not_and_or.mp h3 with h | h
              · exact Or.inl (by simpa [List.isEmpty_iff] using h)
              · exact Or.inr (by simpa using h)
            simp [extract_binaries, h1, h2, h3, ih, List.filter_cons, hk, emitOf]
      · have hk : keepTar k F m = false := by
          simp [keepTar, survivesTar, h1]
        simp [extract_binaries, h1, ih, List.filter_cons, hk]

/-- The zip extraction is likewise a filter followed by the projection. -/
theorem zip_install_eq_filter (k : Nat) (F : List (List Char)) :
    ∀ ms : List Member,
      zip_install k F ms = (ms.filter (keepZip k F)).map emitOf := by
  intro ms
  induction ms with
  | nil => rfl
  | cons m ms ih =>
      by_cases h1 : m.type = MType.dir
      · have hk : keepZip k F m = false := by
          simp [keepZip, survivesZip, h1]
        simp [zip_install, h1, ih, List.filter_cons, hk]
      · by_cases h2 : (splitSlash m.name).length ≤ k
        · have hk : keepZip k F m = false := by
            simp only [keepZip, survivesZip, Bool.and_eq_false_iff]
            left
            right
            simpa using h2
          simp [zip_install, h1, h2, ih, List.filter_cons, hk]
        · by_cases h3 : F ≠ [] ∧ lastSeg m ∉ F
          · have hk : keepZip k F m = false := by
              simp only [keepZip, Bool.and_eq_false_iff]
              right
              simp only [Bool.or_eq_false_iff]
              exact ⟨by simpa [List.isEmpty_iff] using h3.1, by simpa using h3.2⟩
            simp [zip_install, h1, h2, h3, ih, List.filter_cons, hk]
          · have hk : keepZip k F m = true := by
              simp only [keepZip, Bool.and_eq_true, Bool.or_eq_true]
              refine ⟨by simp [survivesZip, h1]; omega, ?_⟩
              rcases not_and_or.mp h3 with h | h
              · exact Or.inl (by simpa [List.isEmpty_iff] using h)
              · exact Or.inr (by simpa using h)
            simp [zip_install, h1, h2, h3, ih, List.filter_cons, hk, emitOf]

/-- A positive tar keep test forces a regular file surviving the strip. -/
theorem keepTar_spec (k : Nat) (F : List (List Char)) (m : Member)
    (h : keepTar k F m = true) :
    m.type = MType.file ∧ k < (splitSlash m.name).length := by
  simp only [keepTar, survivesTar, Bool.and_eq_true, beq_iff_eq,
    decide_eq_true_eq] at h
  exact ⟨h.1.1, h.1.2⟩

/-- A positive zip keep test forces a non-directory surviving the strip. -/
theorem keepZip_spec (k : Nat) (F : List (List Char)) (m : Member)
    (h : keepZip k F m = true) :
    m.type ≠ MType.dir ∧ k < (splitSlash m.name).length := by
  simp only [keepZip, survivesZip, Bool.and_eq_true, Bool.not_eq_true',
    beq_eq_false_iff_ne, ne_eq, decide_eq_true_eq] at h
  exact ⟨h.1.1, h.1.2⟩

/-- The keep test restricted to the survivors is the keep test. -/
theorem keepTar_and_survives (k : Nat) (F : List (List Char)) (m : Member) :
    (keepTar k F m && survivesTar k m) = keepTar k F m := by
  cases hs : survivesTar k m <;> simp [keepTar, hs]

/-- The zip keep test restricted to the survivors is the keep test. -/
theorem keepZip_and_survives (k : Nat) (F : List (List Char)) (m : Member) :
    (keepZip k F m && survivesZip k m) = keepZip k F m := by
  cases hs : survivesZip k m <;> simp [keepZip, hs]

/-- With an empty filter, the keep test is exactly the survival test. -/
theorem keepTar_empty (k : Nat) (m : Member) :
    keepTar k [] m = survivesTar k m := by
  simp [keepTar]

/-- With an empty filter, the zip keep test is the zip survival test. -/
theorem keepZip_empty (k : Nat) (m : Member) :
    keepZip k [] m = survivesZip k m := by
  simp [keepZip]

/-! ## Claim theorems: extraction strategies -/

/-- C3: for every archive (tar and zip alike), strip count k and filter F:
every emitted entry is the separator-free final path segment and content
of some surviving member; members failing the file/strip tests never
contribute (so no entry with at most k segments is emitted); with
non-empty F every emitted name is a member of F; with empty F the output
is exactly the surviving members' (final segment, content) pairs, once
each, in archive enumeration order. -/
theorem generic_extraction_correct (k : Nat) (F : List (List Char)) (ms : List Member) :
    (∀ e ∈ extract_binaries k F ms, ∃ m ∈ ms,
        m.type = MType.file ∧ k < (splitSlash m.name).length ∧
        e = emitOf m ∧ ('/' : Char) ∉ e.1)
    ∧ extract_binaries k F ms = extract_binaries k F (ms.filter (survivesTar k))
    ∧ (F ≠ [] → ∀ e ∈ extract_binaries k F ms, e.1 ∈ F)
    ∧ (F = [] → extract_binaries k F ms = (ms.filter (survivesTar k)).map emitOf)
    ∧ (∀ e ∈ zip_install k F ms, ∃ m ∈ ms,
        m.type ≠ MType.dir ∧ k < (splitSlash m.name).length ∧
        e = emitOf m ∧ ('/' : Char) ∉ e.1)
    ∧ zip_install k F ms = zip_install k F (ms.filter (survivesZip k))
    ∧ (F ≠ [] → ∀ e ∈ zip_install k F ms, e.1 ∈ F)
    ∧ (F = [] → zip_install k F ms = (ms.filter (survivesZip k)).map emitOf) := by
  refine ⟨?_, ?_, ?_, ?_, ?_, ?_, ?_, ?_⟩
  · rw [extract_binaries_eq_filter]
    intro e he
    rcases List.mem_map.mp he with ⟨m, hmf, rfl⟩
    rcases List.mem_filter.mp hmf with ⟨hm, hkeep⟩
    exact ⟨m, hm, (keepTar_spec k F m hkeep).1, (keepTar_spec k F m hkeep).2,
      rfl, no_slash_lastSeg m⟩
  · rw [extract_binaries_eq_filter, extract_binaries_eq_filter,
      List.filter_filter]
    congr 1
    exact List.filter_congr fun m _ => (keepTar_and_survives k F m).symm
  · intro hF e he
    rw [extract_binaries_eq_filter] at he
    rcases List.mem_map.mp he with ⟨m, hmf, rfl⟩
    rcases List.mem_filter.mp hmf with ⟨_, hkeep⟩
    simp only [keepTar, Bool.and_eq_true, Bool.or_eq_true, List.isEmpty_iff,
      decide_eq_true_eq] at hkeep
    rcases hkeep.2 with h | h
    · exact absurd h hF
    · exact h
  · intro hF
    subst hF
    rw [extract_binaries_eq_filter]
    congr 1
    exact List.filter_congr fun m _ => keepTar_empty k m
  · rw [zip_install_eq_filter]
    intro e he
    rcases List.mem_map.mp he with ⟨m, hmf, rfl⟩
    rcases List.mem_filter.mp hmf with ⟨hm, hkeep⟩
    exact ⟨m, hm, (keepZip_spec k F m hkeep).1, (keepZip_spec k F m hkeep).2,
      rfl, no_slash_lastSeg m⟩
  · rw [zip_install_eq_filter, zip_install_eq_filter, List.filter_filter]
    congr 1
    exact List.filter_congr fun m _ => (keepZip_and_survives k F m).symm
  · intro hF e he
    rw [zip_install_eq_filter] at he
    rcases List.mem_map.mp he with ⟨m, hmf, rfl⟩
    rcases List.mem_filter.mp hmf with ⟨_, hkeep⟩
    simp only [keepZip, Bool.and_eq_true, Bool.or_eq_true, List.isEmpty_iff,
      decide_eq_true_eq] at hkeep
    rcases hkeep.2 with h | h
    · exact absurd h hF
    · exact h
  · intro hF
    subst hF
    rw [zip_install_eq_filter]
    congr 1
    exact List.filter_congr fun m _ => keepZip_empty k m

/-- A two-member archive used to instantiate C3: a stripped top-level file
and a nested binary. -/
def wMembers : List Member :=
  [{ name := "README".data, type := MType.file, content := [1] },
   { name := "pkg-1.0/zellij".data, type := MType.file, content := [2] }]

/-- Witness for C3: with strip 1 and an empty filter, the concrete archive
wMembers yields exactly the surviving member projections, and evaluating
both sides gives the single entry zellij. -/
theorem generic_extraction_correct_witness :
    extract_binaries 1 [] wMembers = (wMembers.filter (survivesTar 1)).map emitOf ∧
    extract_binaries 1 [] wMembers = [("zellij".data, [2])] :=
  ⟨(generic_extraction_correct 1 [] wMembers).2.2.2.1 rfl, by decide⟩

/-- C4: the raw-binary strategy yields exactly one installed entry, named
binary_name (the tool name when binary_name is unset), whose content is
the downloaded bytes verbatim; it never consults the archive parser. -/
theorem raw_binary_verbatim (tool : ToolSpec) (data : Bytes)
    (parse1 parse2 : Bytes → Except (List Char) (List Member))
    (hk : tool.kind = ToolKind.rawbin) :
    runInstall parse1 tool data = runInstall parse2 tool data ∧
    runInstall parse1 tool data =
      Except.ok ([(if tool.binary_name = [] then tool.name else tool.binary_name,
                   data)], []) ∧
    binary_install tool.binary_name tool.name data =
      [(if tool.binary_name = [] then tool.name else tool.binary_name, data)] := by
  refine ⟨?_, ?_, rfl⟩ <;> simp [runInstall, hk, binary_install]

/-- A raw-binary descriptor used to instantiate C4. -/
def wRawTool : ToolSpec :=
  { name := "kubectl".data, version := "1.34.3".data, sha256 := "ab".data,
    postInstallMessage := none, kind := ToolKind.rawbin, binaries := [],
    strip := 0, binary_name := "kubectl".data }

/-- An archive parse oracle that always fails. -/
def wParseFail : Bytes → Except (List Char) (List Member) :=
  fun _ => Except.error "not an archive".data

/-- An archive parse oracle that always yields an empty archive. -/
def wParseEmpty : Bytes → Except (List Char) (List Member) :=
  fun _ => Except.ok []

/-- Witness for C4: the concrete raw-binary descriptor yields its single
verbatim entry regardless of the parse oracle. -/
theorem raw_binary_verbatim_witness :
    runInstall wParseFail wRawTool [1, 2, 3] =
      Except.ok ([(if wRawTool.binary_name = [] then wRawTool.name
                   else wRawTool.binary_name, [1, 2, 3])], []) ∧
    runInstall wParseFail wRawTool [1, 2, 3] = runInstall wParseEmpty wRawTool [1, 2, 3] :=
  ⟨(raw_binary_verbatim wRawTool [1, 2, 3] wParseFail wParseEmpty rfl).2.1,
   (raw_binary_verbatim wRawTool [1, 2, 3] wParseFail wParseEmpty rfl).1⟩

/-- The two-entry Helix tar stream of the claim. -/
def helixArchive (c1 c2 : Bytes) : List Member :=
  [{ name := "helix-x/hx".data, type := MType.file, content := c1 },
   { name := "helix-x/runtime/themes/default.toml".data,
     type := MType.file, content := c2 }]

/-- C5: for a tar stream containing helix-x/hx and
helix-x/runtime/themes/default.toml, Helix extraction installs exactly
one entry hx into the standard destination, and performs exactly one
runtime-root side effect: writing themes/default.toml (its parent
directories created) under the fixed runtime root. -/
theorem helix_dual_output (c1 c2 : Bytes) :
    helix_install (helixArchive c1 c2) =
      ([("hx".data, c1)],
       [HelixFx.writeFile ["themes".data, "default.toml".data] c2]) := by
  rfl

/-- Witness for C5: the dual output evaluated at concrete contents. -/
theorem helix_dual_output_witness :
    helix_install (helixArchive [1] [2]) =
      ([("hx".data, [1])],
       [HelixFx.writeFile ["themes".data, "default.toml".data] [2]]) :=
  helix_dual_output [1] [2]

/-- A top-level (single path segment) file entry named hx. -/
def hxTopEntry (c : Bytes) : Member :=
  { name := "hx".data, type := MType.file, content := c }

/-- C9: Helix extraction skips every member whose path has fewer than two
segments: such a member contributes nothing, and in particular a
top-level file entry named hx is never installed. -/
theorem helix_skips_shallow_entries (m : Member) (ms : List Member) (c : Bytes)
    (h : (splitSlash m.name).length < 2) :
    helix_step m = ([], []) ∧
    helix_install (m :: ms) = helix_install ms ∧
    helix_install [hxTopEntry c] = ([], []) := by
  have hstep : helix_step m = ([], []) := by
    unfold helix_step
    rw [if_pos h]
  refine ⟨hstep, ?_, rfl⟩
  show ((helix_step m).1 ++ (helix_install ms).1,
        (helix_step m).2 ++ (helix_install ms).2) = helix_install ms
  rw [hstep]
  simp

/-- Witness for C9: the top-level hx entry is skipped outright. -/
theorem helix_skips_shallow_entries_witness :
    helix_step (hxTopEntry [7]) = ([], []) ∧
    helix_install [hxTopEntry [7]] = helix_install [] ∧
    helix_install [hxTopEntry [7]] = ([], []) :=
  helix_skips_shallow_entries (hxTopEntry [7]) [] [7] (by decide)

/-- C10 counterexample: hxTopEntry [7] is a file entry whose final path
segment equals hx, yet the Helix extraction installs nothing for it (its
single-segment path fails the minimum-depth test), refuting the claim
that such an entry is always installed. -/
theorem helix_toplevel_hx_not_installed :
    (hxTopEntry [7]).type = MType.file ∧
    lastSeg (hxTopEntry [7]) = "hx".data ∧
    (helix_install [hxTopEntry [7]]).1 = [] := by
  decide

/-- C10 amended: a file entry with at least two path segments whose final
segment equals hx is always installed into the standard destination (the
primary-binary branch takes priority over the runtime branch, so it is
never written into the runtime tree), while a single-segment hx entry is
skipped. -/
theorem helix_hx_file_priority (m : Member) (ms : List Member)
    (hf : m.type = MType.file) (hl : 2 ≤ (splitSlash m.name).length)
    (hx : (splitSlash m.name).getLastD [] = "hx".data) :
    helix_step m = ([("hx".data, m.content)], []) ∧
    helix_install (m :: ms) =
      (("hx".data, m.content) :: (helix_install ms).1, (helix_install ms).2) := by
  have h2 : ¬((splitSlash m.name).length < 2) := by omega
  have hstep : helix_step m = ([("hx".data, m.content)], []) := by
    unfold helix_step
    rw [if_neg h2, if_pos (⟨by rw [hf]; rfl, hx⟩ :
      (m.type == MType.file) = true ∧
        (splitSlash m.name).getLastD [] = "hx".data)]
  refine ⟨hstep, ?_⟩
  show ((helix_step m).1 ++ (helix_install ms).1,
        (helix_step m).2 ++ (helix_install ms).2) =
      (("hx".data, m.content) :: (helix_install ms).1, (helix_install ms).2)
  rw [hstep]
  simp

/-- A file entry whose path contains a runtime segment but ends in hx. -/
def runtimeHxEntry : Member :=
  { name := "helix-x/runtime/hx".data, type := MType.file, content := [9] }

/-- Witness for the amended C10: a file at helix-x/runtime/hx is installed
as the hx binary and triggers no runtime-tree write. -/
theorem helix_hx_file_priority_witness :
    helix_step runtimeHxEntry = ([("hx".data, runtimeHxEntry.content)], []) ∧
    helix_install [runtimeHxEntry] =
      (("hx".data, runtimeHxEntry.content) :: (helix_install []).1,
       (helix_install []).2) :=
  helix_hx_file_priority runtimeHxEntry [] rfl (by decide) (by decide)

/-! ## Claim theorems: hash verification -/

/-- The characters a lowercase hex digest can contain. -/
def hexAlphabet : List Char := "0123456789abcdef".data

/-- Every hex digit produced from a nibble is in the lowercase alphabet. -/
theorem hexChar_mem_alphabet (x : Nat) : hexChar (x % 16) ∈ hexAlphabet := by
  have h : x % 16 < 16 := Nat.mod_lt _ (by norm_num)
  set y := x % 16 with hy
  interval_cases y <;> decide

/-- Every character of a word rendering is in the lowercase alphabet. -/
theorem hex8_mem_alphabet (x : Nat) : ∀ c ∈ hex8 x, c ∈ hexAlphabet := by
  intro c hc
  unfold hex8 at hc
  rcases List.mem_map.mp hc with ⟨i, _, rfl⟩
  exact hexChar_mem_alphabet _

/-- Every character of a hexdigest is in the lowercase alphabet. -/
theorem sha256hex_lowercase (msg : Bytes) :
    ∀ c ∈ sha256hex msg, c ∈ hexAlphabet := by
  intro c hc
  simp only [sha256hex, hexH8, List.mem_append] at hc
  rcases hc with ((((((h | h) | h) | h) | h) | h) | h) | h <;>
    exact hex8_mem_alphabet _ c h

/-- No lowercase hex character is uppercase. -/
theorem hexAlphabet_not_upper : ∀ c ∈ hexAlphabet, c.isUpper = false := by
  decide

/-- The uppercase spelling of the SHA-256 digest of the empty byte
sequence. -/
def upperDigestEmpty : List Char :=
  "E3B0C44298FC1C149AFBF4C8996FB92427AE41E4649B934CA495991B7852B855".data

/-- C1 counterexample: for the empty download and the uppercase spelling
of its correct digest, the two sides agree after normalizing both to
lowercase, yet the verification comparison reports a mismatch — so
verification is not the case-insensitive comparison the claim states. -/
theorem hash_not_case_insensitive :
    (sha256hex []).map Char.toLower = upperDigestEmpty.map Char.toLower ∧
    hashOk [] upperDigestEmpty = false := by
  decide

/-- C1 amended: verification succeeds iff the computed lowercase hexdigest
equals the expected digest string exactly — the comparison is
case-sensitive; the computed digest consists only of lowercase hex
characters, so an expected digest containing any uppercase character is
always rejected. -/
theorem hash_comparison_case_sensitive (data : Bytes) (expected : List Char) :
    (hashOk data expected = true ↔ sha256hex data = expected) ∧
    (∀ c ∈ sha256hex data, c ∈ hexAlphabet) ∧
    (expected.any Char.isUpper = true → hashOk data expected = false) := by
  have hbeq : hashOk data expected = true ↔ sha256hex data = expected := by
    simp [hashOk]
  refine ⟨hbeq, sha256hex_lowercase data, ?_⟩
  intro hup
  cases h : hashOk data expected with
  | false => rfl
  | true =>
      exfalso
      have heq : sha256hex data = expected := hbeq.mp h
      rcases List.any_eq_true.mp hup with ⟨c, hc, hcu⟩
      have : c ∈ hexAlphabet := sha256hex_lowercase data c (heq ▸ hc)
      rw [hexAlphabet_not_upper c this] at hcu
      exact Bool.false_ne_true hcu

/-- Witness for the amended C1: an all-uppercase expected digest is
rejected for the empty download. -/
theorem hash_comparison_case_sensitive_witness :
    upperDigestEmpty.any Char.isUpper = true ∧
    hashOk [] upperDigestEmpty = false :=
  ⟨by decide,
   (hash_comparison_case_sensitive [] upperDigestEmpty).2.2 (by decide)⟩

/-! ## Claim theorems: the orchestrator loop -/

/-- C2: the downloaded bytes reach the archive parser only on traces that
performed the verification first — any trace invoking the install step
starts with create/fetch/verify/persist/stage and only then invokes it —
and when the digest comparison fails the install step is never invoked. -/
theorem no_parse_before_verify (reg : List ToolSpec) (env : Env) (name : List Char) :
    (Ev.installInvoked ∈ (installOne reg env name).2 →
      ∃ post, (installOne reg env name).2 =
        [Ev.tmpFileCreated, Ev.fetched, Ev.verified, Ev.tmpFileWritten,
         Ev.stagingCreated, Ev.installInvoked] ++ post)
    ∧ (∀ tool data, reg.find? (fun t => t.name == name) = some tool →
        env.fetch name = Except.ok data → hashOk data tool.sha256 = false →
        Ev.installInvoked ∉ (installOne reg env name).2) := by
  constructor
  · intro hmem
    cases hfind : reg.find? (fun t => t.name == name) with
    | none =>
        simp only [installOne, hfind] at hmem
        simp at hmem
    | some tool =>
        cases hfetch : env.fetch name with
        | error e =>
            simp only [installOne, hfind, hfetch] at hmem
            simp at hmem
        | ok data =>
            cases hok : hashOk data tool.sha256 with
            | false =>
                simp only [installOne, hfind, hfetch, hok] at hmem
                simp at hmem
            | true =>
                cases hrun : runInstall env.parse tool data with
                | error e =>
                    simp only [installOne, hfind, hfetch, hok, hrun]
                    exact ⟨[Ev.stagingRemoved], by simp⟩
                | ok pr =>
                    cases pr with
                    | mk entries fx =>
                        cases hpl : (placeEvents env.place (entries.map Prod.fst)).2 with
                        | false =>
                            simp only [installOne, hfind, hfetch, hok, hrun, hpl]
                            exact ⟨_, rfl⟩
                        | true =>
                            simp only [installOne, hfind, hfetch, hok, hrun, hpl]
                            exact ⟨_, rfl⟩
  · intro tool data hfind hfetch hok
    simp only [installOne, hfind, hfetch, hok]
    simp

/-- The lowercase SHA-256 digest of the empty byte sequence. -/
def digestEmptyHex : List Char :=
  "e3b0c44298fc1c149afbf4c8996fb92427ae41e4649b934ca495991b7852b855".data

/-- A registry entry whose digest matches the empty download. -/
def wOkTool : ToolSpec :=
  { name := "known_ok".data, version := "1.0".data, sha256 := digestEmptyHex,
    postInstallMessage := none, kind := ToolKind.rawbin, binaries := [],
    strip := 0, binary_name := "known_ok".data }

/-- A registry entry whose digest cannot match any download. -/
def wBadTool : ToolSpec :=
  { name := "known_badhash".data, version := "1.0".data,
    sha256 :=
      "0000000000000000000000000000000000000000000000000000000000000000".data,
    postInstallMessage := none, kind := ToolKind.targz, binaries := [],
    strip := 0, binary_name := [] }

/-- An environment where every fetch returns the empty byte sequence, the
parser yields an empty archive, and every destination copy succeeds. -/
def wEnvOkEmpty : Env :=
  { fetch := fun _ => Except.ok [], parse := fun _ => Except.ok [],
    place := fun _ => true }

/-- An environment where every fetch fails. -/
def wNetEnv : Env :=
  { fetch := fun _ => Except.error "connection error".data,
    parse := fun _ => Except.ok [], place := fun _ => true }

/-- The two-entry witness registry. -/
def wReg : List ToolSpec := [wOkTool, wBadTool]

/-- The requested names of the spec's batch scenario. -/
def wNames : List (List Char) :=
  ["known_ok".data, "unknown".data, "known_badhash".data]

/-- Witness for C2: with a registry entry whose digest cannot match, the
attempt never invokes the install step. -/
theorem no_parse_before_verify_witness :
    Ev.installInvoked ∉ (installOne [wBadTool] wEnvOkEmpty "known_badhash".data).2 :=
  (no_parse_before_verify [wBadTool] wEnvOkEmpty "known_badhash".data).2 wBadTool []
    (by decide) rfl (by decide)

/-- C6: the batch loop processes every requested name in order, recording
one (name, outcome, trace) triple per name — a per-name failure never
short-circuits the rest — and the overall flag is true exactly when every
requested name succeeded. -/
theorem install_tools_batch (reg : List ToolSpec) (env : Env) (names : List (List Char)) :
    install_tools reg env names =
      (names.all (fun n => (installOne reg env n).1 == Outcome.ok),
       names.map (fun n => (n, (installOne reg env n).1, (installOne reg env n).2)))
    ∧ ((install_tools reg env names).1 = true ↔
        ∀ n ∈ names, (installOne reg env n).1 = Outcome.ok) := by
  have h1 : ∀ ns : List (List Char),
      install_tools reg env ns =
        (ns.all (fun n => (installOne reg env n).1 == Outcome.ok),
         ns.map (fun n => (n, (installOne reg env n).1, (installOne reg env n).2))) := by
    intro ns
    induction ns with
    | nil => rfl
    | cons n ns ih => simp [install_tools, ih]
  refine ⟨h1 names, ?_⟩
  rw [h1 names]
  simp [List.all_eq_true]

set_option maxRecDepth 16000 in
/-- Witness for C6: the spec's batch scenario — a good tool, an unknown
name and a bad-hash tool — runs all three attempts, reports ok /
UnknownTool / HashMismatch respectively, and fails overall. -/
theorem install_tools_batch_witness :
    install_tools wReg wEnvOkEmpty wNames =
      (wNames.all (fun n => (installOne wReg wEnvOkEmpty n).1 == Outcome.ok),
       wNames.map (fun n => (n, (installOne wReg wEnvOkEmpty n).1,
         (installOne wReg wEnvOkEmpty n).2)))
    ∧ (install_tools wReg wEnvOkEmpty wNames).1 = false
    ∧ wNames.map (fun n => (installOne wReg wEnvOkEmpty n).1) =
        [Outcome.ok, Outcome.unknownTool, Outcome.hashMismatch] :=
  ⟨(install_tools_batch wReg wEnvOkEmpty wNames).1, by decide, by decide⟩

/-- Every event of the copy loop is a destination write. -/
theorem placeEvents_destWrite (p : List Char → Bool) :
    ∀ l : List (List Char), ∀ e ∈ (placeEvents p l).1, ∃ n, e = Ev.destWrite n := by
  intro l
  induction l with
  | nil => intro e he; simp [placeEvents] at he
  | cons n ns ih =>
      intro e he
      by_cases hp : p n = true
      · simp [placeEvents, hp] at he
        rcases he with he | he
        · exact ⟨n, he⟩
        · exact ih e he
      · simp [placeEvents, hp] at he

/-- C7 counterexample: an attempt whose fetch fails creates the temporary
artifact file but never removes it — the exit path leaks the temp file,
refuting the claim that all temporary resources are released on every
exit path. -/
theorem temp_file_leak_on_failure :
    (installOne [wBadTool] wNetEnv "known_badhash".data).1 = Outcome.networkError ∧
    Ev.tmpFileCreated ∈ (installOne [wBadTool] wNetEnv "known_badhash".data).2 ∧
    Ev.tmpFileRemoved ∉ (installOne [wBadTool] wNetEnv "known_badhash".data).2 := by
  decide

/-- C7 amended: the staging directory is released on every exit path that
created it (its context manager runs on success and on exceptions), and
the temporary artifact file is removed exactly on the success path — on
every failing attempt it is never removed. -/
theorem resource_release (reg : List ToolSpec) (env : Env) (name : List Char) :
    (Ev.stagingCreated ∈ (installOne reg env name).2 →
      Ev.stagingRemoved ∈ (installOne reg env name).2)
    ∧ ((installOne reg env name).1 = Outcome.ok →
        Ev.tmpFileRemoved ∈ (installOne reg env name).2)
    ∧ ((installOne reg env name).1 ≠ Outcome.ok →
        Ev.tmpFileRemoved ∉ (installOne reg env name).2) := by
  cases hfind : reg.find? (fun t => t.name == name) with
  | none => refine ⟨?_, ?_, ?_⟩ <;> simp [installOne, hfind]
  | some tool =>
      cases hfetch : env.fetch name with
      | error e => refine ⟨?_, ?_, ?_⟩ <;> simp [installOne, hfind, hfetch]
      | ok data =>
          cases hok : hashOk data tool.sha256 with
          | false => refine ⟨?_, ?_, ?_⟩ <;> simp [installOne, hfind, hfetch, hok]
          | true =>
              cases hrun : runInstall env.parse tool data with
              | error e =>
                  refine ⟨?_, ?_, ?_⟩ <;>
                    simp [installOne, hfind, hfetch, hok, hrun]
              | ok pr =>
                  cases pr with
                  | mk entries fx =>
                      cases hpl : (placeEvents env.place (entries.map Prod.fst)).2 with
                      | false =>
                          refine ⟨?_, ?_, ?_⟩
                          · intro _
                            simp [installOne, hfind, hfetch, hok, hrun, hpl]
                          · intro hcontra
                            simp [installOne, hfind, hfetch, hok, hrun, hpl] at hcontra
                          · intro _ hmem
                            simp [installOne, hfind, hfetch, hok, hrun, hpl] at hmem
                            rcases placeEvents_destWrite env.place _ _ hmem with ⟨n, hn⟩
                            exact Ev.noConfusion hn
                      | true =>
                          refine ⟨?_, ?_, ?_⟩
                          · intro _
                            simp [installOne, hfind, hfetch, hok, hrun, hpl]
                          · intro _
                            simp [installOne, hfind, hfetch, hok, hrun, hpl]
                          · intro hcontra
                            exfalso
                            apply hcontra
                            simp [installOne, hfind, hfetch, hok, hrun, hpl]

/-- Witness for the amended C7: a successful attempt removes the temp
artifact file. -/
theorem resource_release_witness :
    Ev.tmpFileRemoved ∈ (installOne [wOkTool] wEnvOkEmpty "known_ok".data).2 :=
  (resource_release [wOkTool] wEnvOkEmpty "known_ok".data).2.1 (by decide)

/-- Is an event a copy into the destination directory? -/
def Ev.isDestWrite : Ev → Bool
  | Ev.destWrite _ => true
  | _ => false

/-- C8: an attempt that fails with a hash mismatch or an archive-format
error performs no destination write at all: extraction targets the
private staging area, and destination copies happen only after it
completed. -/
theorem failed_attempt_no_dest_writes (reg : List ToolSpec) (env : Env)
    (name : List Char)
    (h : (installOne reg env name).1 = Outcome.hashMismatch ∨
         (installOne reg env name).1 = Outcome.archiveFormatError) :
    (installOne reg env name).2.filter Ev.isDestWrite = [] := by
  cases hfind : reg.find? (fun t => t.name == name) with
  | none => simp [installOne, hfind] at h
  | some tool =>
      cases hfetch : env.fetch name with
      | error e => simp [installOne, hfind, hfetch] at h
      | ok data =>
          cases hok : hashOk data tool.sha256 with
          | false => simp [installOne, hfind, hfetch, hok, Ev.isDestWrite]
          | true =>
              cases hrun : runInstall env.parse tool data with
              | error e =>
                  simp [installOne, hfind, hfetch, hok, hrun, Ev.isDestWrite]
              | ok pr =>
                  cases pr with
                  | mk entries fx =>
                      cases hpl : (placeEvents env.place (entries.map Prod.fst)).2 with
                      | false =>
                          simp [installOne, hfind, hfetch, hok, hrun, hpl] at h
                      | true =>
                          simp [installOne, hfind, hfetch, hok, hrun, hpl] at h

/-- Witness for C8: the bad-hash attempt performs no destination write. -/
theorem failed_attempt_no_dest_writes_witness :
    (installOne [wBadTool] wEnvOkEmpty "known_badhash".data).2.filter
      Ev.isDestWrite = [] :=
  failed_attempt_no_dest_writes [wBadTool] wEnvOkEmpty "known_badhash".data
    (Or.inl (by decide))

end InstallTool
